import Mathlib

/-!
Verification of the IOU course video URL extractor (`index.js`).

The JavaScript source is shallowly embedded: each pure helper becomes a Lean
function on `String`/`List Char`, the stateful per-page loop becomes explicit
state passing over an association list, and browser effects (page open/close,
console warnings) become an explicit event trace.  Modelling conventions, used
throughout and noted again at the definition they affect:
  * JS numbers obtained from digit strings are modelled as `Nat`
    (exact arithmetic; the IEEE-754 rounding of numbers beyond 2^53 is not
    modelled);
  * `String.prototype.localeCompare` is modelled as code-point
    lexicographic comparison;
  * `String.prototype.toLowerCase` is modelled on the ASCII range
    (`Char.toLower`).
-/

namespace IOU

/-! ## JS string primitives -/

/-- The JavaScript `\s` whitespace class (as used by `trim`, `\s*` and
`replace(/\s+/g,' ')`): ASCII whitespace, NBSP, the Unicode space block,
line/paragraph separators and the BOM. -/
def isWs (c : Char) : Bool :=
  (9 ≤ c.toNat && c.toNat ≤ 13) || c.toNat = 32 || c.toNat = 0xa0 || c.toNat = 0x1680 ||
  (0x2000 ≤ c.toNat && c.toNat ≤ 0x200a) || c.toNat = 0x2028 || c.toNat = 0x2029 ||
  c.toNat = 0x202f || c.toNat = 0x205f || c.toNat = 0x3000 || c.toNat = 0xfeff

/-- `String.prototype.trim` on a char list: drop leading and trailing
whitespace. -/
def trimChars (cs : List Char) : List Char :=
  ((cs.dropWhile isWs).reverse.dropWhile isWs).reverse

/-- `String.prototype.trim`. -/
def trimStr (s : String) : String := ⟨trimChars s.data⟩

/-- `String.prototype.toLowerCase`, modelled on the ASCII range. -/
def toLowerStr (s : String) : String := ⟨s.data.map Char.toLower⟩

/-- `replace(/\s+/g, ' ')`: collapse every whitespace run into one space.
The flag records whether the previous character was part of a run. -/
def collapseWsGo : Bool → List Char → List Char
  | _, [] => []
  | prevWs, c :: cs =>
    if isWs c then
      if prevWs then collapseWsGo true cs else ' ' :: collapseWsGo true cs
    else c :: collapseWsGo false cs

/-- `replace(/\s+/g, ' ')` on a string. -/
def collapseWs (s : String) : String := ⟨collapseWsGo false s.data⟩

/-- `haystack.includes(needle)` / an unanchored regex literal test. -/
def containsSub (needle : List Char) : List Char → Bool
  | [] => needle.isEmpty
  | c :: t => needle.isPrefixOf (c :: t) || containsSub needle t

/-- `s.includes(sub)` on strings. -/
def strContains (s sub : String) : Bool := containsSub sub.data s.data

/-- The regex `\d` class: an ASCII decimal digit. -/
def isDigitCh (c : Char) : Bool := 48 ≤ c.toNat && c.toNat ≤ 57

/-- Numeric value of a digit character. -/
def digitVal (c : Char) : Nat := c.toNat - 48

/-- `Number(s)` on a string of decimal digits, modelled exactly as a `Nat`. -/
def digitsToNat (ds : List Char) : Nat := ds.foldl (fun a c => 10 * a + digitVal c) 0

/-- Digit character of a value `d < 10`. -/
def digitCh (d : Nat) : Char :=
  match d with
  | 0 => '0' | 1 => '1' | 2 => '2' | 3 => '3' | 4 => '4'
  | 5 => '5' | 6 => '6' | 7 => '7' | 8 => '8' | _ => '9'

/-- Little-endian decimal digits of `n`, with explicit fuel so the recursion
is structural (`fuel ≥ n` makes the fuel bound irrelevant). -/
def natToCharsRevGo : Nat → Nat → List Char
  | 0, _ => []
  | fuel + 1, n => if n = 0 then [] else digitCh (n % 10) :: natToCharsRevGo fuel (n / 10)

/-- JS decimal rendering of a natural number (template-literal `${n}`). -/
def natStr (n : Nat) : String :=
  if n = 0 then "0" else ⟨(natToCharsRevGo n n).reverse⟩

/-! ## Argument resolver: lecture specifier expansion (`expandLectureSpecifiers`) -/

/-- `spec.split(',')` on a char list. -/
def splitCommaGo (cur : List Char) : List Char → List (List Char)
  | [] => [cur.reverse]
  | c :: cs =>
    if c = ',' then cur.reverse :: splitCommaGo [] cs
    else splitCommaGo (c :: cur) cs

/-- `spec.split(',')`. -/
def splitComma (cs : List Char) : List (List Char) := splitCommaGo [] cs

/-- The regex `^(\d+)\s*-\s*(\d+)$` applied to a token: on a match, the two
captured digit runs as numbers. -/
def parseRangePart (cs : List Char) : Option (Nat × Nat) :=
  let d1 := cs.takeWhile isDigitCh
  let r1 := cs.dropWhile isDigitCh
  if d1 = [] then none
  else
    match r1.dropWhile isWs with
    | '-' :: r3 =>
      let r4 := r3.dropWhile isWs
      let d2 := r4.takeWhile isDigitCh
      let r5 := r4.dropWhile isDigitCh
      if d2 = [] then none
      else if r5 = [] then some (digitsToNat d1, digitsToNat d2) else none
    | _ => none

/-- The regex `^(\d+)$` applied to a token. -/
def parseSinglePart (cs : List Char) : Option Nat :=
  let d := cs.takeWhile isDigitCh
  if d ≠ [] ∧ cs.dropWhile isDigitCh = [] then some (digitsToNat d) else none

/-- One loop body of `expandLectureSpecifiers`: a range token expands to the
inclusive (order-normalized) integer range as `"Lecture N"` titles, a numeric
token to one `"Lecture N"` title, and any other token is kept verbatim. -/
def expandPart (part : List Char) : List String :=
  match parseRangePart part with
  | some (s, e) =>
    let lo := if s > e then e else s
    let hi := if s > e then s else e
    (List.range' lo (hi - lo + 1)).map (fun i => "Lecture " ++ natStr i)
  | none =>
    match parseSinglePart part with
    | some n => ["Lecture " ++ natStr n]
    | none => [String.mk part]

/-- `expandLectureSpecifiers` (index.js:94-123): split on commas, trim each
token, drop empty tokens, and expand each remaining token. -/
def expandLectureSpecifiers (spec : String) : List String :=
  (((splitComma spec.data).map trimChars).filter (fun p => p ≠ [])).flatMap expandPart

end IOU

namespace IOU

example : expandLectureSpecifiers "5" = ["Lecture 5"] := by decide

example : expandLectureSpecifiers "1-3" = ["Lecture 1", "Lecture 2", "Lecture 3"] := by decide

example : expandLectureSpecifiers "3-1" = ["Lecture 1", "Lecture 2", "Lecture 3"] := by decide

example : expandLectureSpecifiers "1-2, 5 ,foo bar" =
    ["Lecture 1", "Lecture 2", "Lecture 5", "foo bar"] := by decide

example : expandLectureSpecifiers "007" = ["Lecture 7"] := by decide

/-! ## `JSON.parse` model

`JSON.parse` is an external builtin; it is modelled here by a parser for the
JSON grammar (RFC 8259): literals, numbers, strings with escapes, arrays and
objects, with insignificant whitespace.  Numeric values are not needed
downstream, so `jnum` carries no payload. -/

/-- A parsed JSON value. -/
inductive JsonLite where
  | jnull
  | jbool (b : Bool)
  | jnum
  | jstr (s : String)
  | jarr (elts : List JsonLite)
  | jobj (fields : List (String × JsonLite))

/-- JSON insignificant whitespace (space, tab, line feed, carriage return). -/
def isJsonWs (c : Char) : Bool := c = ' ' || c = '\t' || c = '\n' || c = '\r'

/-- Hexadecimal digit value, if any. -/
def hexVal (c : Char) : Option Nat :=
  let n := c.toNat
  if 48 ≤ n && n ≤ 57 then some (n - 48)
  else if 97 ≤ n && n ≤ 102 then some (n - 87)
  else if 65 ≤ n && n ≤ 70 then some (n - 55)
  else none

/-- Body of a JSON string after the opening quote: returns the decoded
characters and the remaining input after the closing quote.  A `\uXXXX`
escape decodes to the scalar with that code when valid. -/
def parseStrBody : Nat → List Char → Option (List Char × List Char)
  | 0, _ => none
  | _ + 1, [] => none
  | fuel + 1, c :: rest =>
    if c = '"' then some ([], rest)
    else if c = '\\' then
      match rest with
      | [] => none
      | e :: r2 =>
        let decoded : Option (Char × List Char) :=
          if e = '"' then some ('"', r2)
          else if e = '\\' then some ('\\', r2)
          else if e = '/' then some ('/', r2)
          else if e = 'b' then some ('\x08', r2)
          else if e = 'f' then some ('\x0c', r2)
          else if e = 'n' then some ('\n', r2)
          else if e = 'r' then some ('\r', r2)
          else if e = 't' then some ('\t', r2)
          else if e = 'u' then
            match r2 with
            | h1 :: h2 :: h3 :: h4 :: r3 =>
              match hexVal h1, hexVal h2, hexVal h3, hexVal h4 with
              | some a, some b, some cc, some d =>
                some (Char.ofNat (((a * 16 + b) * 16 + cc) * 16 + d), r3)
              | _, _, _, _ => none
            | _ => none
          else none
        match decoded with
        | some (ch, r3) =>
          match parseStrBody fuel r3 with
          | some (content, r4) => some (ch :: content, r4)
          | none => none
        | none => none
    else if c.toNat < 32 then none
    else
      match parseStrBody fuel rest with
      | some (content, r2) => some (c :: content, r2)
      | none => none

/-- Remaining input after a JSON number starting at the head of `cs`
(grammar `-? (0 | [1-9][0-9]*) frac? exp?`), or `none` if no number starts
there. -/
def parseNumTail (cs : List Char) : Option (List Char) :=
  let afterSign := match cs with
    | '-' :: r => r
    | r => r
  let intDone : Option (List Char) :=
    match afterSign with
    | '0' :: r => some r
    | c :: r => if isDigitCh c && c ≠ '0' then some (r.dropWhile isDigitCh) else none
    | [] => none
  match intDone with
  | none => none
  | some r1 =>
    let r2 := match r1 with
      | '.' :: d :: r => if isDigitCh d then some ((d :: r).dropWhile isDigitCh) else none
      | _ => some r1
    match r2 with
    | none => none
    | some r3 =>
      match r3 with
      | e :: r4 =>
        if e = 'e' || e = 'E' then
          let r5 := match r4 with
            | '+' :: r => r
            | '-' :: r => r
            | r => r
          match r5 with
          | d :: r6 => if isDigitCh d then some ((d :: r6).dropWhile isDigitCh) else none
          | [] => none
        else some r3
      | [] => some r3

/-- Comma-separated JSON array elements (after any leading element start),
ending at `]`; parameterized by the value parser so the recursion stays
structural in the element fuel. -/
def parseElemsGo (pv : List Char → Option (JsonLite × List Char)) :
    Nat → List Char → Option (List JsonLite × List Char)
  | 0, _ => none
  | efuel + 1, cs =>
    match pv cs with
    | none => none
    | some (v, r) =>
      match r.dropWhile isJsonWs with
      | ',' :: r3 =>
        match parseElemsGo pv efuel r3 with
        | some (vs, r4) => some (v :: vs, r4)
        | none => none
      | ']' :: r3 => some ([v], r3)
      | _ => none

/-- Comma-separated JSON object members, ending at `}`. -/
def parseFieldsGo (pv : List Char → Option (JsonLite × List Char)) :
    Nat → List Char → Option (List (String × JsonLite) × List Char)
  | 0, _ => none
  | efuel + 1, cs =>
    match cs.dropWhile isJsonWs with
    | '"' :: r =>
      match parseStrBody (r.length + 1) r with
      | none => none
      | some (key, r2) =>
        match r2.dropWhile isJsonWs with
        | ':' :: r3 =>
          match pv r3 with
          | none => none
          | some (v, r4) =>
            match r4.dropWhile isJsonWs with
            | ',' :: r5 =>
              match parseFieldsGo pv efuel r5 with
              | some (fs, r6) => some ((⟨key⟩, v) :: fs, r6)
              | none => none
            | '}' :: r5 => some ([(⟨key⟩, v)], r5)
            | _ => none
        | _ => none
    | _ => none

/-- JSON value parser with structural fuel: leading whitespace, then a
literal, string, number, array or object. -/
def parseValue : Nat → List Char → Option (JsonLite × List Char)
  | 0 => fun _ => none
  | fuel + 1 => fun cs =>
    match cs.dropWhile isJsonWs with
    | [] => none
    | c :: rest =>
      if c = 'n' then
        if ['u', 'l', 'l'].isPrefixOf rest then some (.jnull, rest.drop 3) else none
      else if c = 't' then
        if ['r', 'u', 'e'].isPrefixOf rest then some (.jbool true, rest.drop 3) else none
      else if c = 'f' then
        if ['a', 'l', 's', 'e'].isPrefixOf rest then some (.jbool false, rest.drop 4) else none
      else if c = '"' then
        match parseStrBody (rest.length + 1) rest with
        | some (content, r) => some (.jstr ⟨content⟩, r)
        | none => none
      else if c = '[' then
        match rest.dropWhile isJsonWs with
        | ']' :: r2 => some (.jarr [], r2)
        | _ =>
          match parseElemsGo (parseValue fuel) (rest.length + 1) rest with
          | some (vs, r2) => some (.jarr vs, r2)
          | none => none
      else if c = '{' then
        match rest.dropWhile isJsonWs with
        | '}' :: r2 => some (.jobj [], r2)
        | _ =>
          match parseFieldsGo (parseValue fuel) (rest.length + 1) rest with
          | some (fs, r2) => some (.jobj fs, r2)
          | none => none
      else if c = '-' || isDigitCh c then
        match parseNumTail (c :: rest) with
        | some r => some (.jnum, r)
        | none => none
      else none

/-- `JSON.parse`: a parse succeeds when a single value consumes the whole
input up to trailing whitespace; otherwise it throws (`none`). -/
def jsonParse (s : String) : Option JsonLite :=
  match parseValue (s.length + 1) s.data with
  | some (v, r) => if r.dropWhile isJsonWs = [] then some v else none
  | none => none

/-! ## Argument resolver: `lectureTitles` (index.js:125-136)

`JSON.parse(lecturesRaw)` is attempted first; only when it THROWS does the
`catch` branch run `expandLectureSpecifiers` (on a non-blank raw value).  A
successful parse that yields a non-array leaves `lectureTitles = []`.  The
`catch` branch pushes strings; array elements keep their parsed type. -/

/-- The resolved `lectureTitles` value. -/
def resolveLectureFilter (raw : String) : List JsonLite :=
  match jsonParse raw with
  | some (.jarr xs) => xs
  | some _ => []
  | none =>
    if 0 < (trimStr raw).length then (expandLectureSpecifiers raw).map .jstr else []

example : jsonParse "5" = some .jnum := by rfl

example : jsonParse "007" = none := by rfl

example : resolveLectureFilter "1-3" =
    [.jstr "Lecture 1", .jstr "Lecture 2", .jstr "Lecture 3"] := by rfl

/-! ## Video link extractor: quality selection (index.js:273-291) -/

/-- A `a.dropdown-item` anchor: its `textContent` and its `href` property
(the empty string models an anchor whose `href` resolves falsy). -/
structure Anchor where
  text : String
  href : String
deriving DecidableEq

/-- `textOf` inside the page evaluation: lowercase then trim. -/
def textOf (a : Anchor) : String := trimStr (toLowerStr a.text)

/-- `high` followed by `\s*` followed by `quality` starting at the head. -/
def hqAt (cs : List Char) : Bool :=
  "high".data.isPrefixOf cs &&
    "quality".data.isPrefixOf ((cs.drop 4).dropWhile isWs)

/-- The regex `high\s*quality` somewhere in the text. -/
def containsHQ : List Char → Bool
  | [] => false
  | c :: t => hqAt (c :: t) || containsHQ t

/-- The HD pattern `/hd|high\s*quality|720p|1080p/` on the normalized text. -/
def hdTest (s : String) : Bool :=
  strContains s "hd" || containsHQ s.data || strContains s "720p" || strContains s "1080p"

/-- The SD pattern `/sd|normal|240p|360p|480p/` on the normalized text. -/
def sdTest (s : String) : Bool :=
  strContains s "sd" || strContains s "normal" || strContains s "240p" ||
    strContains s "360p" || strContains s "480p"

/-- The `downloadUrl` page evaluation: `hd` and `sd` are the first anchors
matching each pattern, and the result is `(hd && hd.href) || (sd && sd.href)
|| null` — JS `||` falls through when the found anchor's `href` is the empty
string (falsy). -/
def selectDownloadUrl (anchors : List Anchor) : Option String :=
  let hd := anchors.find? (fun a => hdTest (textOf a))
  let sd := anchors.find? (fun a => sdTest (textOf a))
  let sdPart : Option String :=
    match sd with
    | some b => if b.href ≠ "" then some b.href else none
    | none => none
  match hd with
  | some a => if a.href ≠ "" then some a.href else sdPart
  | none => sdPart

example : selectDownloadUrl [⟨"SD Normal", "u1"⟩, ⟨"HD High Quality", "u2"⟩] = some "u2" := by
  decide

example : selectDownloadUrl [⟨"HD High Quality", "u2"⟩, ⟨"SD Normal", "u1"⟩] = some "u2" := by
  decide

example : selectDownloadUrl [⟨"SD Normal", "u1"⟩] = some "u1" := by decide

example : selectDownloadUrl [⟨"other", "u3"⟩] = none := by decide

example : selectDownloadUrl [] = none := by decide

/-! ## Course section scanner (index.js:196-240) -/

/-- One `li.activity ... a.aalink` anchor inside a section: its raw
`textContent` and its `href` attribute (`getAttribute('href') || ''`, so the
empty string models a missing attribute). -/
structure PageItem where
  text : String
  href : String
deriving DecidableEq

/-- One `li.section.course-section` node: the `h3.sectionname` text (empty
when the heading element is missing) and the page-activity anchors in
document order. -/
structure SectionNode where
  heading : String
  items : List PageItem
deriving DecidableEq

/-- A discovered video page: `{ lecture: sectionTitle, itemTitle: text,
href }`. -/
structure VideoPageRef where
  lecture : String
  itemTitle : String
  href : String
deriving DecidableEq

/-- `normalize` inside the page evaluation: lowercase then trim. -/
def normalize (s : String) : String := trimStr (toLowerStr s)

/-- Inner loop over a matching section's page items: keep an item iff its
whitespace-collapsed trimmed text matches `/video/i` (`!href || !isVideoTitle
→ continue`) and its href is non-empty. -/
def scanItems (sectionTitle : String) : List PageItem → List VideoPageRef
  | [] => []
  | it :: rest =>
    if it.href ≠ "" ∧ strContains (toLowerStr (trimStr (collapseWs it.text))) "video" = true then
      ⟨sectionTitle, trimStr (collapseWs it.text), it.href⟩ :: scanItems sectionTitle rest
    else scanItems sectionTitle rest

/-- `matchesLecture` for one section (`sectionTitle` is the trimmed heading,
`sectionTitleNorm` its normalization): with explicit target titles the
section matches when some target is a substring of the normalized heading,
otherwise when the normalized heading matches `/lecture/`. -/
def sectionMatches (targetTitles : List String) (sec : SectionNode) : Bool :=
  if targetTitles.length > 0 then
    targetTitles.any (fun t => strContains (normalize (trimStr sec.heading)) t)
  else strContains (normalize (trimStr sec.heading)) "lecture"

/-- Outer loop over sections. -/
def scanSections (targetTitles : List String) : List SectionNode → List VideoPageRef
  | [] => []
  | sec :: rest =>
    if sectionMatches targetTitles sec = true then
      scanItems (trimStr sec.heading) sec.items ++ scanSections targetTitles rest
    else scanSections targetTitles rest

/-- The whole `lectureVideoPages` page evaluation: normalize the incoming
titles, drop the empty ones, then scan the sections. -/
def lectureVideoPages (titlesIn : List String) (sections : List SectionNode) :
    List VideoPageRef :=
  scanSections ((titlesIn.map normalize).filter (fun t => 0 < t.length)) sections

example :
    lectureVideoPages [] [⟨"Lecture 1", [⟨"Video 1", "h1"⟩, ⟨"Notes", "h2"⟩]⟩,
      ⟨"Resources", [⟨"Video extra", "h3"⟩]⟩] = [⟨"Lecture 1", "Video 1", "h1"⟩] := by
  decide

example :
    lectureVideoPages ["Lecture 2"] [⟨"Lecture 2: Basics", [⟨"The Video", "h1"⟩]⟩,
      ⟨"Lecture 20", [⟨"Video 20", "h2"⟩]⟩] =
      [⟨"Lecture 2: Basics", "The Video", "h1"⟩, ⟨"Lecture 20", "Video 20", "h2"⟩] := by
  decide

/-! ## Retry wrapper (`retry`, index.js:27-51)

The operation is modelled as a function from the attempt index (1-based, as
passed by `retry` to `fn(i)`) to a result; rejection carries an error of type
`E`.  The observable behaviour of one `retry` call is a trace: how many times
`fn` was invoked, which delays were slept (in order), which errors were
recorded (equally, the arguments of the `onError` invocations, whose own
exceptions the source swallows with `try {...} catch (_) {}`), and the final
outcome.  The final `throw lastError` throws `undefined` when no attempt ever
ran, hence the `Option E` in the error position.  `attempts` is an `Int` so
that non-positive values behave as in JS (`for (i = 1; i <= attempts)` never
runs); delays are exact naturals. -/

/-- Observable trace of one `retry` call. -/
structure RetryTrace (E A : Type) where
  calls : Nat
  sleeps : List Nat
  errors : List E
  result : Except (Option E) A

/-- The `retry` loop: `rem` iterations remain, `i` is the current attempt
index, `delay` the current delay, `lastErr` the error recorded so far.
A failure sleeps only when attempts remain (`rem ≠ 0`, i.e. `i < attempts`)
and always multiplies the delay by `backoff`. -/
def retryGo (fn : Nat → Except E A) (backoff : Nat) :
    Nat → Nat → Nat → Option E → RetryTrace E A
  | 0, _, _, lastErr => ⟨0, [], [], .error lastErr⟩
  | rem + 1, i, delay, _ =>
    match fn i with
    | .ok a => ⟨1, [], [], .ok a⟩
    | .error e =>
      let rest := retryGo fn backoff rem (i + 1) (delay * backoff) (some e)
      ⟨rest.calls + 1, (if rem ≠ 0 then [delay] else []) ++ rest.sleeps,
        e :: rest.errors, rest.result⟩

/-- `retry(fn, {attempts, initialDelayMs, backoffFactor})`. -/
def retryRun (fn : Nat → Except E A) (attempts : Int) (initialDelay backoff : Nat) :
    RetryTrace E A :=
  retryGo fn backoff attempts.toNat 1 initialDelay none

example :
    retryRun (fun i => if i = 3 then .ok 42 else .error i) 5 100 2 =
      ⟨3, [100, 200], [1, 2], .ok 42⟩ := by rfl

example : retryRun (A := Unit) (fun i => .error i) 3 100 2 =
    ⟨3, [100, 200], [1, 2, 3], .error (some 3)⟩ := by rfl

example : retryRun (A := Unit) (fun i => .error i) 0 100 2 =
    ⟨0, [], [], .error none⟩ := by rfl

/-! ## Result aggregator / writer (index.js:313-350) -/

/-- One `{title, url}` entry pushed for a lecture. -/
structure Entry where
  title : String
  url : String
deriving DecidableEq

/-- The aggregation `Map` from lecture titles to entry lists, as an
association list in insertion order (JS `Map` iterates in insertion order
and keys are unique). -/
abbrev AggMap := List (String × List Entry)

/-- `extractLectureNumber` (index.js:313-319): first the leftmost match of
`/lecture\s*(\d+)/i`, else the leftmost digit run `/(\d+)/`, else no number
(`Number.NaN` in the source, `none` here).  The numeric value of the digit
run is exact (`Nat`). -/
def findLectureNum : List Char → Option Nat
  | [] => none
  | c :: t =>
    if "lecture".data.isPrefixOf ((c :: t).map Char.toLower) then
      let afterWs := ((c :: t).drop 7).dropWhile isWs
      let ds := afterWs.takeWhile isDigitCh
      if ds ≠ [] then some (digitsToNat ds) else findLectureNum t
    else findLectureNum t

/-- The fallback `/(\d+)/`: leftmost maximal digit run. -/
def findFirstNum : List Char → Option Nat
  | [] => none
  | c :: t =>
    if isDigitCh c then some (digitsToNat ((c :: t).takeWhile isDigitCh))
    else findFirstNum t

/-- `extractLectureNumber`. -/
def extractLectureNumber (title : String) : Option Nat :=
  match findLectureNum title.data with
  | some n => some n
  | none => findFirstNum title.data

example : extractLectureNumber "Lecture 10" = some 10 := by decide
example : extractLectureNumber "lecture7 intro" = some 7 := by decide
example : extractLectureNumber "Session 3" = some 3 := by decide
example : extractLectureNumber "Session X" = none := by decide

/-- One output group: extracted number, entries, original title. -/
structure Group where
  num : Option Nat
  entries : List Entry
  original : String
deriving DecidableEq

/-- Groups in map iteration order (index.js:321-325). -/
def mkGroups (m : AggMap) : List Group :=
  m.map (fun p => ⟨extractLectureNumber p.1, p.2, p.1⟩)

/-- Code-point lexicographic `≤` on char lists; this models
`String.prototype.localeCompare` in the sort comparator. -/
def lexLe : List Char → List Char → Bool
  | [], _ => true
  | _ :: _, [] => false
  | a :: as, b :: bs =>
    if a.toNat < b.toNat then true
    else if b.toNat < a.toNat then false
    else lexLe as bs

/-- `strLexLe a b` iff `a.localeCompare(b) ≤ 0` in the model. -/
def strLexLe (a b : String) : Bool := lexLe a.data b.data

/-- The sort comparator (index.js:326-331) as a total preorder:
`groupLE a b` iff the comparator returns `≤ 0` on `(a, b)`.  A group without
a number gets key `Number.POSITIVE_INFINITY`, hence sorts after every
numbered group. -/
def groupLE (a b : Group) : Bool :=
  match a.num, b.num with
  | some x, some y => if x = y then strLexLe a.original b.original else decide (x < y)
  | some _, none => true
  | none, some _ => false
  | none, none => strLexLe a.original b.original

/-- `groups.sort(comparator)`: JS `Array.prototype.sort` is required to be
stable and to produce a sequence sorted by the (consistent) comparator; the
stable sorted permutation of a list under a total preorder is unique, so
insertion sort is a faithful model. -/
def sortGroups (gs : List Group) : List Group :=
  List.insertionSort (fun a b => groupLE a b = true) gs

/-- Header of one group: `Lecture N` when a number was extracted, else the
original title (index.js:335). -/
def groupHeader (g : Group) : String :=
  match g.num with
  | some n => "Lecture " ++ natStr n
  | none => g.original

/-- The output lines (index.js:333-341): per group a `# header` line, one
line per entry URL, and a blank separator line. -/
def outputLines (m : AggMap) : List String :=
  (sortGroups (mkGroups m)).flatMap
    (fun g => ("# " ++ groupHeader g) :: (g.entries.map Entry.url ++ [""]))

/-- `lines.join('\n')` (index.js:343). -/
def renderOutput (m : AggMap) : String :=
  String.intercalate "\n" (outputLines m)

example :
    (sortGroups (mkGroups [("Lecture 10", []), ("Session X", []), ("Lecture 2", [])])).map
        Group.original = ["Lecture 2", "Lecture 10", "Session X"] := by decide

/-! ## Per-item extraction loop (index.js:254-310)

Processing one `VideoPageRef` happens in a fresh browser page inside
`try {...} catch (err) {...} finally { await videoPage.close() }`.  The
environment's contribution to one iteration is an oracle outcome: the body
threw (`failure`, e.g. navigation retries exhausted or evaluation failure),
or `downloadUrl` evaluated to `null` (`noLink`), or to a URL (`success`).
Browser and console effects are an explicit event trace. -/

/-- Oracle outcome of one iteration's interaction with the browser. -/
inductive PageOutcome where
  | success (url : String)
  | noLink
  | failure (msg : String)
deriving DecidableEq

/-- Observable events of the loop. -/
inductive LoopEv where
  | pageOpen
  | pageClose
  | logFetched (title url : String)
  | warnNoLink (title : String)
  | warnFailed (title msg : String)
deriving DecidableEq

/-- `lectureToVideoUrls` update (index.js:293-301): create the key with `[]`
on first use, then push the entry — append-at-key preserving insertion
order. -/
def appendEntry (m : AggMap) (lec : String) (e : Entry) : AggMap :=
  match m with
  | [] => [(lec, [e])]
  | (k, es) :: rest =>
    if k = lec then (k, es ++ [e]) :: rest else (k, es) :: appendEntry rest lec e

/-- One loop iteration: the page is opened first, every branch of the body
logs once, and the `finally` closes the page on success, no-link and failure
alike.  Only the success branch touches the aggregation map. -/
def runItem (item : VideoPageRef) (oc : PageOutcome) (m : AggMap) :
    AggMap × List LoopEv :=
  match oc with
  | .success url =>
    (appendEntry m item.lecture ⟨item.itemTitle, url⟩,
      [.pageOpen, .logFetched item.itemTitle url, .pageClose])
  | .noLink => (m, [.pageOpen, .warnNoLink item.itemTitle, .pageClose])
  | .failure msg => (m, [.pageOpen, .warnFailed item.itemTitle msg, .pageClose])

/-- The whole loop over the discovered pages, each paired with its oracle
outcome. -/
def runLoop : List (VideoPageRef × PageOutcome) → AggMap → AggMap × List LoopEv
  | [], m => (m, [])
  | (it, oc) :: rest, m =>
    let step := runItem it oc m
    let tail := runLoop rest step.1
    (tail.1, step.2 ++ tail.2)

/-! ## Post-scan control flow (index.js:242-246, 248-352) -/

/-- Observable outcome of everything after the course-page scan. -/
structure RunResult where
  logs : List String
  wroteFile : Option String
  browserClosed : Bool
  exitOk : Bool
deriving DecidableEq

/-- index.js:242-352: with zero discovered pages, log the distinct line,
close the browser and return from the async main (normal termination);
otherwise run the loop, render the grouped output, print it and write it to
`downloads/video-urls.txt`, then close the browser.  `exitOk` records that
the path ends by normal completion, not by a rejection. -/
def afterScan (found : List (VideoPageRef × PageOutcome)) : RunResult :=
  if found.length = 0 then
    { logs := ["No matching lecture video pages found."]
      wroteFile := none
      browserClosed := true
      exitOk := true }
  else
    let output := renderOutput (runLoop found []).1
    { logs := ["Found " ++ natStr found.length ++ " video page(s) across lectures.", output,
        "Saved URLs to: downloads/video-urls.txt"]
      wroteFile := some output
      browserClosed := true
      exitOk := true }

/-! ## Helper lemmas -/

theorem dropWhile_eq_self_of_none {p : Char → Bool} {cs : List Char}
    (h : ∀ c ∈ cs, p c = false) : cs.dropWhile p = cs := by
  cases cs with
  | nil => rfl
  | cons c t => simp [List.dropWhile_cons, h c (by simp)]

theorem trimChars_eq_self {cs : List Char} (h : ∀ c ∈ cs, isWs c = false) :
    trimChars cs = cs := by
  unfold trimChars
  rw [dropWhile_eq_self_of_none h, dropWhile_eq_self_of_none, List.reverse_reverse]
  intro c hc
  exact h c (by simpa using hc)

theorem splitCommaGo_no_comma (cs : List Char) (h : ∀ c ∈ cs, c ≠ ',') :
    ∀ cur, splitCommaGo cur cs = [cur.reverse ++ cs] := by
  induction cs with
  | nil => intro cur; simp [splitCommaGo]
  | cons c t ih =>
    intro cur
    have hc : c ≠ ',' := h c (by simp)
    simp only [splitCommaGo, if_neg hc]
    rw [ih (fun x hx => h x (by simp [hx]))]
    simp

theorem takeWhile_all {p : Char → Bool} {cs : List Char} (h : ∀ c ∈ cs, p c = true) :
    cs.takeWhile p = cs := by
  induction cs with
  | nil => rfl
  | cons c t ih =>
    simp only [List.takeWhile_cons, h c (by simp), if_true]
    rw [ih (fun x hx => h x (by simp [hx]))]

theorem dropWhile_all {p : Char → Bool} {cs : List Char} (h : ∀ c ∈ cs, p c = true) :
    cs.dropWhile p = [] := by
  induction cs with
  | nil => rfl
  | cons c t ih =>
    simp only [List.dropWhile_cons, h c (by simp), if_true]
    exact ih (fun x hx => h x (by simp [hx]))

theorem takeWhile_append_stop {p : Char → Bool} {pre : List Char} (c : Char)
    (post : List Char) (hpre : ∀ x ∈ pre, p x = true) (hc : p c = false) :
    (pre ++ c :: post).takeWhile p = pre := by
  induction pre with
  | nil => simp [List.takeWhile_cons, hc]
  | cons a t ih =>
    simp only [List.cons_append, List.takeWhile_cons, hpre a (by simp), if_true]
    rw [ih (fun x hx => hpre x (by simp [hx]))]

theorem dropWhile_append_stop {p : Char → Bool} {pre : List Char} (c : Char)
    (post : List Char) (hpre : ∀ x ∈ pre, p x = true) (hc : p c = false) :
    (pre ++ c :: post).dropWhile p = c :: post := by
  induction pre with
  | nil => simp [List.dropWhile_cons, hc]
  | cons a t ih =>
    simp only [List.cons_append, List.dropWhile_cons, hpre a (by simp), if_true]
    exact ih (fun x hx => hpre x (by simp [hx]))

theorem isDigitCh_digitCh (d : Nat) : isDigitCh (digitCh d) = true := by
  unfold digitCh; split <;> rfl

theorem isWs_digitCh (d : Nat) : isWs (digitCh d) = false := by
  unfold digitCh; split <;> rfl

theorem digitCh_ne_comma (d : Nat) : digitCh d ≠ ',' := by
  unfold digitCh; split <;> decide

theorem digitVal_digitCh {d : Nat} (h : d < 10) : digitVal (digitCh d) = d := by
  interval_cases d <;> rfl

theorem natToCharsRevGo_mem {fuel n : Nat} {c : Char} (h : c ∈ natToCharsRevGo fuel n) :
    ∃ d, c = digitCh d := by
  induction fuel generalizing n with
  | zero => simp [natToCharsRevGo] at h
  | succ fuel ih =>
    unfold natToCharsRevGo at h
    by_cases hn : n = 0
    · simp [hn] at h
    · rw [if_neg hn] at h
      rcases List.mem_cons.mp h with h1 | h2
      · exact ⟨n % 10, h1⟩
      · exact ih h2

theorem natStr_mem_digit {n : Nat} {c : Char} (h : c ∈ (natStr n).data) :
    isDigitCh c = true := by
  unfold natStr at h
  by_cases hn : n = 0
  · rw [if_pos hn] at h
    have hc : c = '0' := by
      have h0 : ("0" : String).data = ['0'] := rfl
      rw [h0] at h
      simpa using h
    subst hc; rfl
  · rw [if_neg hn] at h
    obtain ⟨d, rfl⟩ := natToCharsRevGo_mem (List.mem_reverse.mp h)
    exact isDigitCh_digitCh d

theorem natStr_ne_nil (n : Nat) : (natStr n).data ≠ [] := by
  unfold natStr
  by_cases hn : n = 0
  · simp [hn]
  · rw [if_neg hn]
    cases n with
    | zero => exact absurd rfl hn
    | succ m =>
      simp only [natToCharsRevGo, if_neg hn]
      simp

theorem isWs_of_digit {c : Char} (h : isDigitCh c = true) : isWs c = false := by
  unfold isDigitCh at h
  rw [Bool.and_eq_true] at h
  have h1 : 48 ≤ c.toNat := by simpa using h.1
  have h2 : c.toNat ≤ 57 := by simpa using h.2
  unfold isWs
  simp only [Bool.or_eq_false_iff, Bool.and_eq_false_iff, decide_eq_false_iff_not]
  omega


theorem natToCharsRevGo_foldl {fuel n : Nat} (h : n ≤ fuel) (acc : Nat) :
    List.foldl (fun a c => 10 * a + digitVal c) acc (natToCharsRevGo fuel n).reverse =
      acc * 10 ^ (natToCharsRevGo fuel n).length + n := by
  induction fuel generalizing n acc with
  | zero =>
    have hn : n = 0 := Nat.le_zero.mp h
    subst hn; simp [natToCharsRevGo]
  | succ fuel ih =>
    by_cases hn : n = 0
    · subst hn; simp [natToCharsRevGo]
    · have hdiv : n / 10 ≤ fuel := by
        have := Nat.div_lt_self (Nat.pos_of_ne_zero hn) (by norm_num : 1 < 10)
        omega
      simp only [natToCharsRevGo, if_neg hn, List.reverse_cons, List.foldl_append,
        List.length_cons]
      rw [ih hdiv]
      simp only [List.foldl_cons, List.foldl_nil]
      rw [digitVal_digitCh (Nat.mod_lt n (by norm_num))]
      have := Nat.div_add_mod n 10
      ring_nf
      omega

theorem digitsToNat_natStr (n : Nat) : digitsToNat (natStr n).data = n := by
  unfold natStr digitsToNat
  by_cases hn : n = 0
  · subst hn; rfl
  · rw [if_neg hn]
    simpa using natToCharsRevGo_foldl (Nat.le_refl n) 0

theorem digit_ne_comma {c : Char} (h : isDigitCh c = true) : c ≠ ',' := by
  intro hc
  subst hc
  exact absurd h (by decide)

theorem parseRangePart_digits {dx dy : List Char} (hx : ∀ c ∈ dx, isDigitCh c = true)
    (hy : ∀ c ∈ dy, isDigitCh c = true) (hx0 : dx ≠ []) (hy0 : dy ≠ []) :
    parseRangePart (dx ++ '-' :: dy) = some (digitsToNat dx, digitsToNat dy) := by
  unfold parseRangePart
  rw [takeWhile_append_stop '-' dy hx (by decide), dropWhile_append_stop '-' dy hx (by decide)]
  rw [if_neg hx0]
  have hws : ∀ c ∈ dy, isWs c = false := fun c hc => isWs_of_digit (hy c hc)
  simp only [List.dropWhile_cons, show isWs '-' = false by decide, if_false,
    Bool.false_eq_true]
  rw [dropWhile_eq_self_of_none hws, takeWhile_all hy, dropWhile_all hy]
  rw [if_neg hy0]
  rfl

theorem expandLectureSpecifiers_single_token (s : String)
    (h1 : ∀ c ∈ s.data, c ≠ ',') (h2 : ∀ c ∈ s.data, isWs c = false) (h3 : s.data ≠ []) :
    expandLectureSpecifiers s = expandPart s.data := by
  unfold expandLectureSpecifiers splitComma
  rw [splitCommaGo_no_comma s.data h1 []]
  simp only [List.reverse_nil, List.nil_append, List.map_cons, List.map_nil,
    trimChars_eq_self h2]
  rw [List.filter_cons_of_pos (by simpa using h3)]
  simp

/-- Characters of the rendered range specifier `natStr x ++ "-" ++ natStr y`. -/
theorem rangeSpec_data (x y : Nat) :
    (natStr x ++ "-" ++ natStr y).data = (natStr x).data ++ '-' :: (natStr y).data := by
  rw [String.data_append, String.data_append]
  simp [show ("-" : String).data = ['-'] from rfl]

theorem expand_rangeSpec (x y : Nat) :
    expandLectureSpecifiers (natStr x ++ "-" ++ natStr y) =
      expandPart ((natStr x).data ++ '-' :: (natStr y).data) := by
  have hx : ∀ c ∈ (natStr x).data, isDigitCh c = true := fun c hc => natStr_mem_digit hc
  have hy : ∀ c ∈ (natStr y).data, isDigitCh c = true := fun c hc => natStr_mem_digit hc
  have h1 : ∀ c ∈ (natStr x).data ++ '-' :: (natStr y).data, c ≠ ',' := by
    intro c hc
    rcases List.mem_append.mp hc with h | h
    · exact digit_ne_comma (hx c h)
    · rcases List.mem_cons.mp h with rfl | h
      · decide
      · exact digit_ne_comma (hy c h)
  have h2 : ∀ c ∈ (natStr x).data ++ '-' :: (natStr y).data, isWs c = false := by
    intro c hc
    rcases List.mem_append.mp hc with h | h
    · exact isWs_of_digit (hx c h)
    · rcases List.mem_cons.mp h with rfl | h
      · decide
      · exact isWs_of_digit (hy c h)
  have h3 : (natStr x).data ++ '-' :: (natStr y).data ≠ [] := by
    intro h
    exact absurd (List.append_eq_nil.mp h).2 (by simp)
  have hdata := rangeSpec_data x y
  rw [← hdata] at h1 h2 h3
  rw [expandLectureSpecifiers_single_token _ h1 h2 h3, hdata]

theorem expandPart_range_val (x y : Nat) :
    expandPart ((natStr x).data ++ '-' :: (natStr y).data) =
      (List.range' (if x > y then y else x)
        ((if x > y then x else y) - (if x > y then y else x) + 1)).map
        (fun i => "Lecture " ++ natStr i) := by
  have hx : ∀ c ∈ (natStr x).data, isDigitCh c = true := fun c hc => natStr_mem_digit hc
  have hy : ∀ c ∈ (natStr y).data, isDigitCh c = true := fun c hc => natStr_mem_digit hc
  unfold expandPart
  rw [parseRangePart_digits hx hy (natStr_ne_nil x) (natStr_ne_nil y)]
  simp only [digitsToNat_natStr]

/-! ## Claim theorems -/

/-- **C8**: for all naturals `a > b`, the range specifier `"a-b"` expands to
exactly the same list as `"b-a"` — the endpoints are order-normalized before
the inclusive range is enumerated — and the result is
`["Lecture b", ..., "Lecture a"]` in ascending order. -/
theorem range_specifier_order_normalized (a b : Nat) (h : b < a) :
    expandLectureSpecifiers (natStr a ++ "-" ++ natStr b) =
      expandLectureSpecifiers (natStr b ++ "-" ++ natStr a) ∧
    expandLectureSpecifiers (natStr a ++ "-" ++ natStr b) =
      (List.range' b (a - b + 1)).map (fun i => "Lecture " ++ natStr i) := by
  have hgt : a > b := h
  have hngt : ¬(b > a) := by omega
  constructor
  · rw [expand_rangeSpec a b, expand_rangeSpec b a, expandPart_range_val,
      expandPart_range_val]
    simp only [if_pos hgt, if_neg hngt]
  · rw [expand_rangeSpec a b, expandPart_range_val]
    simp only [if_pos hgt]

/-- Witness for C8 at `a = 3`, `b = 1`. -/
theorem range_specifier_order_normalized_witness :
    (1 : Nat) < 3 ∧
      (expandLectureSpecifiers (natStr 3 ++ "-" ++ natStr 1) =
        expandLectureSpecifiers (natStr 1 ++ "-" ++ natStr 3) ∧
      expandLectureSpecifiers (natStr 3 ++ "-" ++ natStr 1) =
        (List.range' 1 (3 - 1 + 1)).map (fun i => "Lecture " ++ natStr i)) :=
  ⟨by decide, range_specifier_order_normalized 3 1 (by decide)⟩

/-- **C1** (code bug evidence): the raw specifier `"5"` is valid JSON (a
number, not an array), so the resolver leaves the filter empty and never
reaches the numeric expansion — even though `expandLectureSpecifiers` itself
would produce exactly `["Lecture 5"]` as the claim (and the README's
"`--lectures '5'`, exact numeric match") requires. -/
theorem numeric_specifier_swallowed_by_json_parse :
    resolveLectureFilter "5" = [] ∧ jsonParse "5" = some .jnum ∧
      expandLectureSpecifiers "5" = ["Lecture 5"] :=
  ⟨rfl, rfl, by decide⟩

/-- **C9**: with `attempts ≤ 0` the loop body never runs: the operation is
never invoked and the call rejects with `undefined` (`Option.none` in the
error position), since `lastError` was never assigned. -/
theorem retry_nonpositive_attempts {E A : Type} (fn : Nat → Except E A)
    (attempts : Int) (h : attempts ≤ 0) (d b : Nat) :
    retryRun fn attempts d b = ⟨0, [], [], .error none⟩ := by
  unfold retryRun
  rw [Int.toNat_of_nonpos h]
  rfl

/-- Witness for C9 at `attempts = -1`. -/
theorem retry_nonpositive_attempts_witness :
    (-1 : Int) ≤ 0 ∧
      retryRun (A := Unit) (fun i => .error i) (-1) 100 2 = ⟨0, [], [], .error none⟩ :=
  ⟨by decide, retry_nonpositive_attempts _ (-1) (by decide) 100 2⟩

/-- **C7**: when the scan yields zero video-page refs, the aggregator/writer
never runs: no output file is written, the distinct "no matching" line is the
only log, the browser is closed, and the process terminates normally. -/
theorem empty_scan_skips_writer (titles : List String) (sections : List SectionNode)
    (oracle : VideoPageRef → PageOutcome)
    (h : lectureVideoPages titles sections = []) :
    afterScan ((lectureVideoPages titles sections).map (fun r => (r, oracle r))) =
      ⟨["No matching lecture video pages found."], none, true, true⟩ := by
  rw [h]
  rfl

/-- Witness for C7: a course whose only section is not a lecture. -/
theorem empty_scan_skips_writer_witness :
    lectureVideoPages [] [⟨"Orientation", [⟨"Video intro", "h"⟩]⟩] = [] ∧
      afterScan ((lectureVideoPages [] [⟨"Orientation", [⟨"Video intro", "h"⟩]⟩]).map
          (fun r => (r, PageOutcome.noLink))) =
        ⟨["No matching lecture video pages found."], none, true, true⟩ :=
  ⟨by decide, empty_scan_skips_writer _ _ _ (by decide)⟩

theorem find?_eq_head_filter {α : Type} (p : α → Bool) (l : List α) :
    l.find? p = (l.filter p).head? := by
  induction l with
  | nil => rfl
  | cons a t ih =>
    cases h : p a with
    | true => rw [List.find?_cons, h, List.filter_cons, h]; rfl
    | false =>
      rw [List.find?_cons, h, List.filter_cons, h]
      simp only [Bool.false_eq_true, if_false]
      exact ih

/-- The quality-selection rule in the claim's words, as amended: the first
HD-matching anchor's href when non-empty; with no HD-matching anchor or an
empty href there, the first SD-matching anchor's href when non-empty; else
absent. -/
def specQualitySelect (anchors : List Anchor) : Option String :=
  let sdFallback : Option String :=
    match (anchors.filter (fun a => sdTest (textOf a))).head? with
    | some b => if b.href = "" then none else some b.href
    | none => none
  match (anchors.filter (fun a => hdTest (textOf a))).head? with
  | some a => if a.href = "" then sdFallback else some a.href
  | none => sdFallback

/-- **C2** (counterexample): the first anchor matches the HD pattern, yet its
empty (falsy) href is not returned — the SD anchor's href is, so the result
is neither "the href of the first HD-matching anchor" nor absent. -/
theorem quality_selection_claim_counterexample :
    hdTest (textOf ⟨"HD", ""⟩) = true ∧
      selectDownloadUrl [⟨"HD", ""⟩, ⟨"SD Normal", "u"⟩] = some "u" ∧
      ("u" : String) ≠ "" ∧ selectDownloadUrl [⟨"HD", ""⟩, ⟨"SD Normal", "u"⟩] ≠ none :=
  ⟨by decide, by decide, by decide, by decide⟩

/-- **C2** (amended): the extractor returns the first HD-matching anchor's
href provided it is non-empty; if no anchor matches HD — or the first
HD-matching anchor's href is the empty string — the first SD-matching
anchor's href provided it is non-empty; otherwise no link. -/
theorem quality_selection_amended (anchors : List Anchor) :
    selectDownloadUrl anchors = specQualitySelect anchors := by
  unfold selectDownloadUrl specQualitySelect
  rw [find?_eq_head_filter, find?_eq_head_filter]
  cases hhd : (anchors.filter (fun a => hdTest (textOf a))).head? with
  | none =>
    cases hsd : (anchors.filter (fun a => sdTest (textOf a))).head? with
    | none => rfl
    | some b => by_cases hb : b.href = "" <;> simp [hb]
  | some a =>
    cases hsd : (anchors.filter (fun a => sdTest (textOf a))).head? with
    | none => by_cases ha : a.href = "" <;> simp [ha]
    | some b =>
      by_cases ha : a.href = "" <;> by_cases hb : b.href = "" <;> simp [ha, hb]

/-- The claim's per-item emission predicate: link text matches `/video/i` and
the href is non-empty. -/
def specItemEmitted (it : PageItem) : Bool :=
  strContains (toLowerStr (trimStr (collapseWs it.text))) "video" && it.href ≠ ""

/-- The claim's section-selection predicate: with explicit target titles
(those whose normalization is non-empty) the section is selected iff some
target is a substring of the lowercased trimmed heading; with none, iff the
normalized heading contains `"lecture"`. -/
def specSectionSelected (titlesIn : List String) (sec : SectionNode) : Bool :=
  if ((titlesIn.map normalize).filter (fun t => t ≠ "")).isEmpty then
    strContains (normalize (trimStr sec.heading)) "lecture"
  else
    ((titlesIn.map normalize).filter (fun t => t ≠ "")).any
      (fun t => strContains (normalize (trimStr sec.heading)) t)

theorem scanItems_eq_filter (st : String) (items : List PageItem) :
    scanItems st items =
      (items.filter specItemEmitted).map
        (fun it => ⟨st, trimStr (collapseWs it.text), it.href⟩) := by
  induction items with
  | nil => rfl
  | cons it rest ih =>
    by_cases h : it.href ≠ "" ∧ strContains (toLowerStr (trimStr (collapseWs it.text))) "video" = true
    · have hk : specItemEmitted it = true := by
        simp only [specItemEmitted, Bool.and_eq_true, decide_eq_true_eq]
        exact ⟨h.2, h.1⟩
      simp only [scanItems, if_pos h, List.filter_cons, hk, if_true, List.map_cons, ih]
    · have hk : ¬(specItemEmitted it = true) := by
        simp only [specItemEmitted, Bool.and_eq_true, decide_eq_true_eq]
        intro hc
        exact h ⟨hc.2, hc.1⟩
      simp only [scanItems, if_neg h, List.filter_cons, if_neg hk, ih]

theorem scanSections_eq_filter (T : List String) (sections : List SectionNode) :
    scanSections T sections =
      (sections.filter (sectionMatches T)).flatMap
        (fun sec => scanItems (trimStr sec.heading) sec.items) := by
  induction sections with
  | nil => rfl
  | cons sec rest ih =>
    by_cases h : sectionMatches T sec = true
    · simp only [scanSections, if_pos h, List.filter_cons, h, if_true, List.flatMap_cons, ih]
    · simp only [scanSections, if_neg h, List.filter_cons, if_neg h, ih]

theorem length_pos_eq_ne_empty (t : String) : (decide (0 < t.length)) = (decide (t ≠ "")) := by
  cases t with
  | mk d =>
    cases d with
    | nil => simp [String.length]
    | cons c cs => simp [String.length, String.ext_iff]

theorem targets_eq (titlesIn : List String) :
    (titlesIn.map normalize).filter (fun t => 0 < t.length) =
      (titlesIn.map normalize).filter (fun t => t ≠ "") :=
  List.filter_congr (fun t _ => length_pos_eq_ne_empty t)

theorem sectionMatches_eq_spec (titlesIn : List String) (sec : SectionNode) :
    sectionMatches ((titlesIn.map normalize).filter (fun t => t ≠ "")) sec =
      specSectionSelected titlesIn sec := by
  by_cases h : (titlesIn.map normalize).filter (fun t => t ≠ "") = []
  · unfold sectionMatches specSectionSelected
    rw [h]
    rfl
  · have h1 : 0 < ((titlesIn.map normalize).filter (fun t => t ≠ "")).length :=
      List.length_pos.mpr h
    have h2 : ¬(((titlesIn.map normalize).filter (fun t => t ≠ "")).isEmpty = true) := by
      intro hE
      exact h (List.isEmpty_iff.mp hE)
    unfold sectionMatches specSectionSelected
    rw [if_pos h1, if_neg h2]

/-- **C5**: the scanner emits, in section-then-item order, exactly the
video items of the selected sections: a section is selected per the explicit
filter (case-insensitive substring of the normalized heading) when target
titles exist, else per the default `"lecture"` predicate, and within a
selected section exactly the items with `/video/i` link text and non-empty
href are emitted. -/
theorem scanner_selection_semantics (titlesIn : List String) (sections : List SectionNode) :
    lectureVideoPages titlesIn sections =
      (sections.filter (specSectionSelected titlesIn)).flatMap
        (fun sec => (sec.items.filter specItemEmitted).map
          (fun it => ⟨trimStr sec.heading, trimStr (collapseWs it.text), it.href⟩)) := by
  unfold lectureVideoPages
  rw [targets_eq, scanSections_eq_filter]
  rw [List.filter_congr (fun sec _ => sectionMatches_eq_spec titlesIn sec)]
  have hfun : (fun sec : SectionNode => scanItems (trimStr sec.heading) sec.items) =
      (fun sec : SectionNode => (sec.items.filter specItemEmitted).map
        (fun it => ⟨trimStr sec.heading, trimStr (collapseWs it.text), it.href⟩)) := by
    funext sec
    exact scanItems_eq_filter (trimStr sec.heading) sec.items
  rw [hfun]

/-- **C10**: when every explicit title normalizes to the empty string, all of
them are discarded and the scanner behaves exactly as with no filter at all —
the default "heading contains `lecture`" predicate, not match-everything. -/
theorem blank_titles_fall_back_to_default (titles : List String)
    (h : ∀ t ∈ titles, normalize t = "") (sections : List SectionNode) :
    lectureVideoPages titles sections = lectureVideoPages [] sections ∧
      lectureVideoPages titles sections =
        (sections.filter
            (fun sec => strContains (normalize (trimStr sec.heading)) "lecture")).flatMap
          (fun sec => scanItems (trimStr sec.heading) sec.items) := by
  have hT : (titles.map normalize).filter (fun t => 0 < t.length) = [] := by
    apply List.filter_eq_nil_iff.mpr
    intro t ht
    obtain ⟨u, hu, rfl⟩ := List.mem_map.mp ht
    rw [h u hu]
    decide
  have hMain : lectureVideoPages titles sections = scanSections [] sections := by
    unfold lectureVideoPages
    rw [hT]
  constructor
  · rw [hMain]
    rfl
  · rw [hMain, scanSections_eq_filter]
    rfl

/-- Witness for C10 with titles `["", "  "]`: the non-lecture section is not
matched even though `""` is a substring of every heading. -/
theorem blank_titles_fall_back_to_default_witness :
    (∀ t ∈ ["", "  "], normalize t = "") ∧
      (lectureVideoPages ["", "  "] [⟨"Topic 1", [⟨"Video", "h"⟩]⟩] =
          lectureVideoPages [] [⟨"Topic 1", [⟨"Video", "h"⟩]⟩] ∧
        lectureVideoPages ["", "  "] [⟨"Topic 1", [⟨"Video", "h"⟩]⟩] =
          (([⟨"Topic 1", [⟨"Video", "h"⟩]⟩] : List SectionNode).filter
              (fun sec => strContains (normalize (trimStr sec.heading)) "lecture")).flatMap
            (fun sec => scanItems (trimStr sec.heading) sec.items)) :=
  ⟨by decide, blank_titles_fall_back_to_default ["", "  "] (by decide) _⟩

theorem lexLe_total (as bs : List Char) : lexLe as bs = true ∨ lexLe bs as = true := by
  induction as generalizing bs with
  | nil => left; rfl
  | cons a as ih =>
    cases bs with
    | nil => right; rfl
    | cons b bs =>
      unfold lexLe
      rcases Nat.lt_trichotomy a.toNat b.toNat with hlt | heq | hgt
      · left; rw [if_pos hlt]
      · rw [if_neg (by omega), if_neg (by omega), if_neg (by omega), if_neg (by omega)]
        exact ih bs
      · right; rw [if_pos hgt]

theorem lexLe_trans {as bs cs : List Char} (h1 : lexLe as bs = true)
    (h2 : lexLe bs cs = true) : lexLe as cs = true := by
  induction as generalizing bs cs with
  | nil => rfl
  | cons a as ih =>
    cases bs with
    | nil => simp [lexLe] at h1
    | cons b bs =>
      cases cs with
      | nil => simp [lexLe] at h2
      | cons c cs =>
        unfold lexLe at h1 h2 ⊢
        by_cases hab : a.toNat < b.toNat
        · by_cases hbc : b.toNat < c.toNat
          · rw [if_pos (Nat.lt_trans hab hbc)]
          · rw [if_neg hbc] at h2
            by_cases hcb : c.toNat < b.toNat
            · rw [if_pos hcb] at h2; exact absurd h2 Bool.false_ne_true
            · rw [if_pos (show a.toNat < c.toNat by omega)]
        · rw [if_neg hab] at h1
          by_cases hba : b.toNat < a.toNat
          · rw [if_pos hba] at h1; exact absurd h1 Bool.false_ne_true
          · rw [if_neg hba] at h1
            by_cases hbc : b.toNat < c.toNat
            · rw [if_pos (show a.toNat < c.toNat by omega)]
            · rw [if_neg hbc] at h2
              by_cases hcb : c.toNat < b.toNat
              · rw [if_pos hcb] at h2; exact absurd h2 Bool.false_ne_true
              · rw [if_neg hcb] at h2
                rw [if_neg (show ¬a.toNat < c.toNat by omega),
                  if_neg (show ¬c.toNat < a.toNat by omega)]
                exact ih h1 h2

theorem groupLE_total (a b : Group) : groupLE a b = true ∨ groupLE b a = true := by
  rcases a with ⟨anum, aent, aorig⟩
  rcases b with ⟨bnum, bent, borig⟩
  cases anum with
  | none =>
    cases bnum with
    | none => simpa only [groupLE, strLexLe] using lexLe_total aorig.data borig.data
    | some y => right; rfl
  | some x =>
    cases bnum with
    | none => left; rfl
    | some y =>
      simp only [groupLE, strLexLe]
      by_cases hxy : x = y
      · subst hxy
        rw [if_pos rfl, if_pos rfl]
        exact lexLe_total aorig.data borig.data
      · rw [if_neg hxy, if_neg (Ne.symm hxy)]
        rcases Nat.lt_or_ge x y with h | h
        · left; exact decide_eq_true h
        · right; exact decide_eq_true (by omega)

theorem groupLE_trans (a b c : Group) (h1 : groupLE a b = true)
    (h2 : groupLE b c = true) : groupLE a c = true := by
  rcases a with ⟨anum, aent, aorig⟩
  rcases b with ⟨bnum, bent, borig⟩
  rcases c with ⟨cnum, cent, corig⟩
  cases anum with
  | none =>
    cases bnum with
    | none =>
      cases cnum with
      | none =>
        simp only [groupLE, strLexLe] at h1 h2 ⊢
        exact lexLe_trans h1 h2
      | some z => simp [groupLE] at h2
    | some y => simp [groupLE] at h1
  | some x =>
    cases cnum with
    | none => rfl
    | some z =>
      cases bnum with
      | none => simp [groupLE] at h2
      | some y =>
        simp only [groupLE, strLexLe] at h1 h2 ⊢
        by_cases hxy : x = y
        · subst hxy
          rw [if_pos rfl] at h1
          by_cases hyz : x = z
          · subst hyz
            rw [if_pos rfl] at h2
            rw [if_pos rfl]
            exact lexLe_trans h1 h2
          · rw [if_neg hyz] at h2
            rw [if_neg hyz]
            exact h2
        · rw [if_neg hxy] at h1
          have hx : x < y := of_decide_eq_true h1
          by_cases hyz : y = z
          · subst hyz
            rw [if_neg hxy]
            exact h1
          · rw [if_neg hyz] at h2
            have hy : y < z := of_decide_eq_true h2
            rw [if_neg (show x ≠ z by omega)]
            exact decide_eq_true (by omega)

/-- The claim's pairwise output order: numbered groups ascending by number,
numbered before numberless, ties and numberless pairs broken lexically by the
original title. -/
def claimGroupOrder (a b : Group) : Prop :=
  match a.num, b.num with
  | some x, some y => x < y ∨ (x = y ∧ strLexLe a.original b.original = true)
  | some _, none => True
  | none, some _ => False
  | none, none => strLexLe a.original b.original = true

theorem groupLE_imp_claim {a b : Group} (h : groupLE a b = true) : claimGroupOrder a b := by
  rcases a with ⟨anum, aent, aorig⟩
  rcases b with ⟨bnum, bent, borig⟩
  cases anum with
  | none =>
    cases bnum with
    | none => exact h
    | some y => simp [groupLE] at h
  | some x =>
    cases bnum with
    | none => trivial
    | some y =>
      simp only [groupLE] at h
      simp only [claimGroupOrder]
      by_cases hxy : x = y
      · subst hxy
        rw [if_pos rfl] at h
        exact Or.inr ⟨rfl, h⟩
      · rw [if_neg hxy] at h
        exact Or.inl (of_decide_eq_true h)

/-- **C3**: the writer orders the lecture groups as claimed — the output is a
permutation of the groups (each carrying the number extracted from its title
by `lecture\s*(\d+)` first, then any digit run), pairwise sorted by the
claimed order (numbered ascending, numberless last, lexical tiebreak), and on
the concrete titles {"Lecture 10","Lecture 2","Session X"} the order is
["Lecture 2","Lecture 10","Session X"]. -/
theorem aggregator_sort_order (m : AggMap) :
    (sortGroups (mkGroups m)).Perm (mkGroups m) ∧
    (∀ g ∈ sortGroups (mkGroups m), g.num = extractLectureNumber g.original) ∧
    List.Sorted claimGroupOrder (sortGroups (mkGroups m)) ∧
    (sortGroups (mkGroups [("Lecture 10", []), ("Lecture 2", []), ("Session X", [])])).map
      Group.original = ["Lecture 2", "Lecture 10", "Session X"] := by
  refine ⟨List.perm_insertionSort _ _, ?_, ?_, by decide⟩
  · intro g hg
    have hmem : g ∈ mkGroups m := (List.perm_insertionSort _ _).mem_iff.mp hg
    obtain ⟨p, _, rfl⟩ := List.mem_map.mp hmem
    rfl
  · have hs := @List.sorted_insertionSort Group (fun a b => groupLE a b = true) _
      ⟨groupLE_total⟩ ⟨fun a b c => groupLE_trans a b c⟩ (mkGroups m)
    exact hs.imp (fun h => groupLE_imp_claim h)

/-- Witness for C3: the number extracted for a concrete member of the sorted
output. -/
theorem aggregator_sort_order_witness :
    (⟨some 2, [], "Lecture 2"⟩ : Group) ∈ sortGroups (mkGroups [("Lecture 2", [])]) ∧
      (⟨some 2, [], "Lecture 2"⟩ : Group).num = extractLectureNumber "Lecture 2" :=
  ⟨by decide, (aggregator_sort_order [("Lecture 2", [])]).2.1 _ (by decide)⟩

/-- `lectureToVideoUrls.get(k)` — JS `Map.get` as an observation on the
association-list model. -/
def lookupAgg (k : String) : AggMap → Option (List Entry)
  | [] => none
  | (k2, es) :: rest => if k2 = k then some es else lookupAgg k rest

theorem appendEntry_extends (m : AggMap) (lec : String) (e : Entry) (k : String)
    (es : List Entry) (h : lookupAgg k m = some es) :
    ∃ suf, lookupAgg k (appendEntry m lec e) = some (es ++ suf) := by
  induction m with
  | nil => simp [lookupAgg] at h
  | cons p rest ih =>
    rcases p with ⟨pk, pes⟩
    by_cases hpl : pk = lec
    · simp only [appendEntry, if_pos hpl]
      by_cases hpk : pk = k
      · simp only [lookupAgg, if_pos hpk] at h ⊢
        obtain rfl : pes = es := by injection h
        exact ⟨[e], rfl⟩
      · simp only [lookupAgg, if_neg hpk] at h ⊢
        exact ⟨[], by rw [h, List.append_nil]⟩
    · simp only [appendEntry, if_neg hpl]
      by_cases hpk : pk = k
      · simp only [lookupAgg, if_pos hpk] at h ⊢
        exact ⟨[], by rw [List.append_nil]; exact h⟩
      · simp only [lookupAgg, if_neg hpk] at h ⊢
        exact ih h

theorem runItem_extends (it : VideoPageRef) (oc : PageOutcome) (m : AggMap) (k : String)
    (es : List Entry) (h : lookupAgg k m = some es) :
    ∃ suf, lookupAgg k (runItem it oc m).1 = some (es ++ suf) := by
  cases oc with
  | success url => exact appendEntry_extends m it.lecture ⟨it.itemTitle, url⟩ k es h
  | noLink => exact ⟨[], by rw [List.append_nil]; exact h⟩
  | failure msg => exact ⟨[], by rw [List.append_nil]; exact h⟩

theorem runLoop_extends (items : List (VideoPageRef × PageOutcome)) (m : AggMap)
    (k : String) (es : List Entry) (h : lookupAgg k m = some es) :
    ∃ suf, lookupAgg k (runLoop items m).1 = some (es ++ suf) := by
  induction items generalizing m es with
  | nil => exact ⟨[], by rw [List.append_nil]; exact h⟩
  | cons p rest ih =>
    obtain ⟨s1, h1⟩ := runItem_extends p.1 p.2 m k es h
    obtain ⟨s2, h2⟩ := ih (runItem p.1 p.2 m).1 (es ++ s1) h1
    refine ⟨s1 ++ s2, ?_⟩
    have hstep : (runLoop (p :: rest) m).1 = (runLoop rest (runItem p.1 p.2 m).1).1 := by
      simp only [runLoop]
    rw [hstep, ← List.append_assoc]
    exact h2

theorem runItem_counts (it : VideoPageRef) (oc : PageOutcome) (m : AggMap) :
    (runItem it oc m).2.count LoopEv.pageOpen = 1 ∧
      (runItem it oc m).2.count LoopEv.pageClose = 1 := by
  cases oc <;> exact ⟨rfl, rfl⟩

theorem runLoop_counts (items : List (VideoPageRef × PageOutcome)) (m : AggMap) :
    (runLoop items m).2.count LoopEv.pageOpen = items.length ∧
      (runLoop items m).2.count LoopEv.pageClose = items.length := by
  induction items generalizing m with
  | nil => exact ⟨rfl, rfl⟩
  | cons p rest ih =>
    simp only [runLoop, List.count_append, List.length_cons]
    obtain ⟨ho, hc⟩ := runItem_counts p.1 p.2 m
    obtain ⟨ho2, hc2⟩ := ih (runItem p.1 p.2 m).1
    constructor
    · rw [ho, ho2]; omega
    · rw [hc, hc2]; omega

theorem runLoop_append (xs ys : List (VideoPageRef × PageOutcome)) (m : AggMap) :
    runLoop (xs ++ ys) m =
      ((runLoop ys (runLoop xs m).1).1,
        (runLoop xs m).2 ++ (runLoop ys (runLoop xs m).1).2) := by
  induction xs generalizing m with
  | nil => simp [runLoop]
  | cons p rest ih =>
    simp only [List.cons_append, runLoop, List.append_eq, ih, List.append_assoc]

/-- **C6**: in the per-item loop, (a) every iteration opens one page and the
`finally` closes it on every exit path — the event trace carries exactly one
open and one close per item, on success and failure alike; (b) a thrown error
while processing one page contributes only its open/warn/close events, leaves
the aggregation map exactly as the remaining items alone would produce it, and
never prevents the remaining items from being processed; (c) the aggregation
map is append-only: entries recorded before any point of the loop are still
present, unchanged, at the end. -/
theorem extraction_loop_contract (items : List (VideoPageRef × PageOutcome)) (m0 : AggMap) :
    ((runLoop items m0).2.count LoopEv.pageOpen = items.length ∧
      (runLoop items m0).2.count LoopEv.pageClose = items.length) ∧
    (∀ pre it msg post, items = pre ++ (it, PageOutcome.failure msg) :: post →
      (runLoop items m0).1 = (runLoop (pre ++ post) m0).1 ∧
      (runLoop items m0).2 =
        (runLoop pre m0).2 ++
          [LoopEv.pageOpen, LoopEv.warnFailed it.itemTitle msg, LoopEv.pageClose] ++
          (runLoop post (runLoop pre m0).1).2) ∧
    (∀ k es, lookupAgg k m0 = some es →
      ∃ suf, lookupAgg k (runLoop items m0).1 = some (es ++ suf)) := by
  refine ⟨runLoop_counts items m0, ?_, fun k es h => runLoop_extends items m0 k es h⟩
  rintro pre it msg post rfl
  rw [runLoop_append, runLoop_append]
  have hfail : runLoop ((it, PageOutcome.failure msg) :: post) (runLoop pre m0).1 =
      ((runLoop post (runLoop pre m0).1).1,
        [LoopEv.pageOpen, LoopEv.warnFailed it.itemTitle msg, LoopEv.pageClose] ++
          (runLoop post (runLoop pre m0).1).2) := by
    simp only [runLoop, runItem]
  rw [hfail]
  exact ⟨rfl, by rw [List.append_assoc]⟩

/-- Witness for C6: two items, the second failing; the entry recorded before
the loop survives unchanged. -/
theorem extraction_loop_contract_witness :
    ([(⟨"L1", "V1", "h1"⟩, PageOutcome.success "u1"),
        (⟨"L2", "V2", "h2"⟩, PageOutcome.failure "boom")] =
      [((⟨"L1", "V1", "h1"⟩ : VideoPageRef), PageOutcome.success "u1")] ++
        (⟨"L2", "V2", "h2"⟩, PageOutcome.failure "boom") :: []) ∧
    lookupAgg "L0" [("L0", [⟨"t", "u0"⟩])] = some [⟨"t", "u0"⟩] ∧
    ((runLoop [(⟨"L1", "V1", "h1"⟩, PageOutcome.success "u1"),
          (⟨"L2", "V2", "h2"⟩, PageOutcome.failure "boom")] [("L0", [⟨"t", "u0"⟩])]).1 =
        (runLoop ([((⟨"L1", "V1", "h1"⟩ : VideoPageRef), PageOutcome.success "u1")] ++ [])
          [("L0", [⟨"t", "u0"⟩])]).1 ∧
      (runLoop [(⟨"L1", "V1", "h1"⟩, PageOutcome.success "u1"),
          (⟨"L2", "V2", "h2"⟩, PageOutcome.failure "boom")] [("L0", [⟨"t", "u0"⟩])]).2 =
        (runLoop [((⟨"L1", "V1", "h1"⟩ : VideoPageRef), PageOutcome.success "u1")]
            [("L0", [⟨"t", "u0"⟩])]).2 ++
          [LoopEv.pageOpen, LoopEv.warnFailed "V2" "boom", LoopEv.pageClose] ++
          (runLoop []
            (runLoop [((⟨"L1", "V1", "h1"⟩ : VideoPageRef), PageOutcome.success "u1")]
              [("L0", [⟨"t", "u0"⟩])]).1).2) ∧
    (∃ suf,
      lookupAgg "L0"
          (runLoop [(⟨"L1", "V1", "h1"⟩, PageOutcome.success "u1"),
            (⟨"L2", "V2", "h2"⟩, PageOutcome.failure "boom")] [("L0", [⟨"t", "u0"⟩])]).1 =
        some ([⟨"t", "u0"⟩] ++ suf)) := by
  have h := extraction_loop_contract
    [(⟨"L1", "V1", "h1"⟩, PageOutcome.success "u1"),
      (⟨"L2", "V2", "h2"⟩, PageOutcome.failure "boom")] [("L0", [⟨"t", "u0"⟩])]
  exact ⟨by decide, by decide,
    h.2.1 [((⟨"L1", "V1", "h1"⟩ : VideoPageRef), PageOutcome.success "u1")]
      ⟨"L2", "V2", "h2"⟩ "boom" [] (by decide),
    h.2.2 "L0" [⟨"t", "u0"⟩] (by decide)⟩

theorem retryGo_calls_le {E A : Type} (fn : Nat → Except E A) (b : Nat) :
    ∀ rem i delay le, (retryGo fn b rem i delay le).calls ≤ rem := by
  intro rem
  induction rem with
  | zero => intro i delay le; exact Nat.le_refl 0
  | succ rem ih =>
    intro i delay le
    cases hfi : fn i with
    | ok a => simp [retryGo, hfi]
    | error e =>
      simp only [retryGo, hfi]
      exact Nat.succ_le_succ (ih (i + 1) (delay * b) (some e))

theorem retryGo_success {E A : Type} (fn : Nat → Except E A) (b : Nat) :
    ∀ rem i delay le j a, i ≤ j → j < i + rem → fn j = .ok a →
      (∀ k, i ≤ k → k < j → ∃ e, fn k = .error e) →
      (retryGo fn b rem i delay le).calls = j + 1 - i ∧
        (retryGo fn b rem i delay le).result = .ok a := by
  intro rem
  induction rem with
  | zero => intro i delay le j a h1 h2 _ _; omega
  | succ rem ih =>
    intro i delay le j a hij hjr hok hfail
    by_cases hji : j = i
    · subst hji
      simp only [retryGo, hok]
      constructor
      · omega
      · trivial
    · have hi : i < j := lt_of_le_of_ne hij (fun hh => hji hh.symm)
      obtain ⟨e, he⟩ := hfail i (Nat.le_refl i) hi
      simp only [retryGo, he]
      obtain ⟨hc, hr⟩ := ih (i + 1) (delay * b) (some e) j a (by omega) (by omega) hok
        (fun k hk1 hk2 => hfail k (by omega) hk2)
      exact ⟨by rw [hc]; omega, hr⟩

theorem retryGo_allfail {E A : Type} (fn : Nat → Except E A) (b : Nat) :
    ∀ rem i delay le, 1 ≤ rem → (∀ k, i ≤ k → k < i + rem → ∃ e, fn k = .error e) →
      (retryGo fn b rem i delay le).calls = rem ∧
        ∃ e, fn (i + rem - 1) = .error e ∧
          (retryGo fn b rem i delay le).result = .error (some e) := by
  intro rem
  induction rem with
  | zero => intro i delay le h; omega
  | succ rem ih =>
    intro i delay le _ hfail
    obtain ⟨e, he⟩ := hfail i (Nat.le_refl i) (by omega)
    simp only [retryGo, he]
    by_cases hr : rem = 0
    · subst hr
      refine ⟨rfl, e, ?_, rfl⟩
      have : i + 1 - 1 = i := by omega
      rw [this]
      exact he
    · obtain ⟨hc, e2, he2, hres⟩ := ih (i + 1) (delay * b) (some e) (by omega)
        (fun k hk1 hk2 => hfail k (by omega) (by omega))
      refine ⟨by rw [hc], e2, ?_, hres⟩
      have : i + 1 + rem - 1 = i + (rem + 1) - 1 := by omega
      rw [← this]
      exact he2

theorem retryGo_errors {E A : Type} (fn : Nat → Except E A) (b : Nat) :
    ∀ rem i delay le k e2, (retryGo fn b rem i delay le).errors[k]? = some e2 →
      fn (i + k) = .error e2 := by
  intro rem
  induction rem with
  | zero => intro i delay le k e2 hk; simp [retryGo] at hk
  | succ rem ih =>
    intro i delay le k e2 hk
    cases hfi : fn i with
    | ok a =>
      simp only [retryGo, hfi] at hk
      simp at hk
    | error e =>
      simp only [retryGo, hfi] at hk
      cases k with
      | zero =>
        simp only [List.getElem?_cons_zero, Option.some.injEq] at hk
        subst hk
        simpa using hfi
      | succ k =>
        simp only [List.getElem?_cons_succ] at hk
        have := ih (i + 1) (delay * b) (some e) k e2 hk
        have harith : i + (k + 1) = i + 1 + k := by omega
        rw [harith]
        exact this

theorem retryGo_sleeps {E A : Type} (fn : Nat → Except E A) (b : Nat) :
    ∀ rem i delay le,
      (retryGo fn b rem i delay le).sleeps =
        (List.range (min (retryGo fn b rem i delay le).errors.length (rem - 1))).map
          (fun k => delay * b ^ k) := by
  intro rem
  induction rem with
  | zero => intro i delay le; rfl
  | succ rem ih =>
    intro i delay le
    cases hfi : fn i with
    | ok a => simp [retryGo, hfi]
    | error e =>
      simp only [retryGo, hfi]
      by_cases hr : rem = 0
      · subst hr
        simp [retryGo]
      · rw [if_pos hr]
        have hrest := ih (i + 1) (delay * b) (some e)
        rw [hrest]
        have hmin : min ((e :: (retryGo fn b rem (i + 1) (delay * b) (some e)).errors).length)
            (rem + 1 - 1) =
            (min ((retryGo fn b rem (i + 1) (delay * b) (some e)).errors.length) (rem - 1)) + 1 := by
          simp only [List.length_cons]
          omega
        rw [hmin, List.range_succ_eq_map, List.map_cons, List.map_map]
        have hf : ((fun k => delay * b ^ k) ∘ Nat.succ) = (fun k => delay * b * b ^ k) := by
          funext k
          simp only [Function.comp_apply, Nat.succ_eq_add_one, pow_succ]
          ring
        rw [hf]
        simp

/-- **C4**: for `attempts ≥ 1`, `retry` invokes the operation at most
`attempts` times; the first successful attempt `j` is returned after exactly
`j` invocations; if all attempts fail the call makes exactly `attempts`
invocations and rejects with the error of the last attempt; every failed
attempt records its error (the argument of the `onError` invocation, observer
exceptions being swallowed) in order; and the recorded sleeps — one per
failed attempt while attempts remain — follow the geometric schedule, the
`k`-th sleep being `initialDelay * backoffFactor^(k-1)` (index `k-1` below),
because the delay is multiplied by the backoff factor after every failed
attempt. -/
theorem retry_contract {E A : Type} (fn : Nat → Except E A) (attempts : Int)
    (h : 1 ≤ attempts) (d b : Nat) :
    (retryRun fn attempts d b).calls ≤ attempts.toNat ∧
    (∀ j a, 1 ≤ j → j ≤ attempts.toNat → fn j = .ok a →
      (∀ k, 1 ≤ k → k < j → ∃ e, fn k = .error e) →
      (retryRun fn attempts d b).calls = j ∧ (retryRun fn attempts d b).result = .ok a) ∧
    ((∀ k, 1 ≤ k → k ≤ attempts.toNat → ∃ e, fn k = .error e) →
      (retryRun fn attempts d b).calls = attempts.toNat ∧
        ∃ e, fn attempts.toNat = .error e ∧
          (retryRun fn attempts d b).result = .error (some e)) ∧
    (∀ k e2, (retryRun fn attempts d b).errors[k]? = some e2 →
      fn (k + 1) = .error e2) ∧
    (retryRun fn attempts d b).sleeps =
      (List.range (min (retryRun fn attempts d b).errors.length (attempts.toNat - 1))).map
        (fun k => d * b ^ k) := by
  have hat : 1 ≤ attempts.toNat := by omega
  unfold retryRun
  refine ⟨retryGo_calls_le fn b attempts.toNat 1 d none, ?_, ?_, ?_,
    retryGo_sleeps fn b attempts.toNat 1 d none⟩
  · intro j a hj1 hj2 hok hfail
    obtain ⟨hc, hr⟩ := retryGo_success fn b attempts.toNat 1 d none j a hj1 (by omega) hok
      (fun k hk1 hk2 => hfail k hk1 hk2)
    exact ⟨by rw [hc]; omega, hr⟩
  · intro hfail
    obtain ⟨hc, e, he, hres⟩ := retryGo_allfail fn b attempts.toNat 1 d none hat
      (fun k hk1 hk2 => hfail k hk1 (by omega))
    refine ⟨hc, e, ?_, hres⟩
    have harith : 1 + attempts.toNat - 1 = attempts.toNat := by omega
    rw [harith] at he
    exact he
  · intro k e2 hk
    have hres := retryGo_errors fn b attempts.toNat 1 d none k e2 hk
    have harith : 1 + k = k + 1 := by omega
    rw [harith] at hres
    exact hres

/-- Witness for C4: three attempts, success at the second; two calls are
made and one sleep with the initial delay occurs. -/
theorem retry_contract_witness :
    (1 : Int) ≤ 3 ∧
      ((retryRun (fun i => if i = 2 then Except.ok 0 else Except.error i) 3 5 2).calls = 2 ∧
        (retryRun (fun i => if i = 2 then Except.ok 0 else Except.error i) 3 5 2).result =
          Except.ok 0) ∧
      (retryRun (fun i => if i = 2 then Except.ok 0 else Except.error i) 3 5 2).sleeps =
        (List.range
            (min (retryRun (fun i => if i = 2 then Except.ok 0 else Except.error i)
                3 5 2).errors.length ((3 : Int).toNat - 1))).map
          (fun k => 5 * 2 ^ k) := by
  have h := retry_contract (fun i => if i = 2 then Except.ok 0 else Except.error i) 3
    (by decide) 5 2
  have hsucc := h.2.1 2 0 (by decide) (by decide) rfl
    (fun k hk1 hk2 => by
      have hk : k = 1 := by omega
      subst hk
      exact ⟨1, rfl⟩)
  exact ⟨by decide, hsucc, h.2.2.2.2⟩
